import Mathlib

/-!
Verification development for the flashlight text library (replabel codec,
lexicon trie with MAX smearing, and word splitting), following the
repository sources `flashlight/lib/text/dictionary/Utils.h` and
`flashlight/lib/text/test/decoder/DecoderTest.cpp`.

Token indices are modelled as natural numbers, scores as rationals
(only their ordering matters for the properties treated here), and the
token dictionary as a list of token strings whose position is the index.
-/

/-- Modelled from the spec: the token dictionary is an external collaborator
(spec section 1), a bijective string-to-index table consumed by the core only
through index lookup.  The implementation behind `Dictionary.h` is not under
`src/`; we model it as the list of registered token strings, a token's index
being its position in the list. -/
structure Dictionary : Type where
  entries : List String
deriving DecidableEq

/-- Modelled from the spec: index lookup of a token string, the position of
the string in the table (spec section 1, consumed via index(token) -> int). -/
def Dictionary.getIndex (d : Dictionary) (s : String) : ℕ :=
  d.entries.indexOf s

/-- Run-length view of a token sequence: the maximal runs of identical
consecutive tokens together with their lengths, in order. -/
def runLengths : List ℕ → List (ℕ × ℕ)
  | [] => []
  | t :: rest =>
    match runLengths rest with
    | [] => [(t, 1)]
    | (u, n) :: rs => if t = u then (t, n + 1) :: rs else (t, 1) :: (u, n) :: rs

/-- Modelled from the spec: the encoding of one maximal run of `n` copies of
token `t` by `packReplabels` (spec section 4.1).  A run of length 1 stays a
bare token; a run of `2 <= n <= maxReps` becomes the token followed by the
dictionary index of the literal count string of `n`; a longer run is packed
in chunks of `maxReps`.  Implementation body of `packReplabels` is absent
from `src/` (only its declaration in `dictionary/Utils.h`). -/
def chunkRun (dict : Dictionary) (maxReps : ℕ) (t : ℕ) (n : ℕ) : List ℕ :=
  if n = 0 then []
  else if n = 1 then [t]
  else if n ≤ maxReps then [t, dict.getIndex (toString n)]
  else
    (if maxReps = 1 then [t] else [t, dict.getIndex (toString maxReps)]) ++
      chunkRun dict maxReps t (n - max maxReps 1)
termination_by n
decreasing_by
  have h1 : 1 ≤ max maxReps 1 := le_max_right _ _
  omega

/-- Modelled from the spec: `packReplabels` (spec section 4.1) scans the
input token-index sequence and replaces every run of identical consecutive
tokens by its replabel encoding; the body of the function is absent from
`src/`.  The guard for a nonpositive `maxReps` leaves the input unchanged,
matching the precondition `maxReps >= 1` of the spec. -/
def packReplabels (tokens : List ℕ) (dict : Dictionary) (maxReps : ℕ) : List ℕ :=
  if maxReps = 0 then tokens
  else ((runLengths tokens).map (fun p => chunkRun dict maxReps p.1 p.2)).flatten

/-- Modelled from the spec: recognition of a replabel count token
(spec section 4.1).  An index is a recognized count token when it is the
dictionary index of one of the literal count strings of 1 up to `maxReps`;
the returned value is the count it denotes. -/
def replabelValue (dict : Dictionary) (maxReps : ℕ) (idx : ℕ) : Option ℕ :=
  ((List.range maxReps).map (· + 1)).find? (fun k => dict.getIndex (toString k) == idx)

/-- Modelled from the spec: `unpackReplabels` (spec section 4.1), the inverse
transform of `packReplabels`; its body is absent from `src/`.  A token
immediately followed by a recognized count token expands to that many
repeats of the token; a token with no following count token passes through
unchanged. -/
def unpackReplabels : List ℕ → Dictionary → ℕ → List ℕ
  | [], _, _ => []
  | [t], _, _ => [t]
  | t :: c :: rest, dict, maxReps =>
    match replabelValue dict maxReps c with
    | some k => List.replicate k t ++ unpackReplabels rest dict maxReps
    | none => t :: unpackReplabels (c :: rest) dict maxReps

/-- Modelled from the spec: the byte length of the UTF-8 code point whose
leading byte is `c` (1 for ASCII, 2 to 4 for multi-byte code points), or
`none` for a byte that cannot lead a code point.  The body of `splitWrd`
is absent from `src/`; only its declaration in `dictionary/Utils.h`
documents that it splits a word into per-character tokens for ASCII and
UTF-8 input. -/
def utf8SeqLen (c : ℕ) : Option ℕ :=
  if c < 0x80 then some 1
  else if 0xC0 ≤ c ∧ c < 0xE0 then some 2
  else if 0xE0 ≤ c ∧ c < 0xF0 then some 3
  else if 0xF0 ≤ c ∧ c < 0xF8 then some 4
  else none

/-- Modelled from the spec: `splitWrd` splits a word (modelled as its byte
sequence) into per-character tokens, one token per UTF-8 code point; it
fails on a byte that cannot lead a code point and on a truncated trailing
code point.  The body is absent from `src/` (declaration only in
`dictionary/Utils.h`: split word into tokens, works with ASCII and UTF-8
encodings). -/
def splitWrd (word : List ℕ) : Option (List (List ℕ)) :=
  match word with
  | [] => some []
  | c :: rest =>
    (utf8SeqLen c).bind (fun k =>
      if rest.length < k - 1 then none
      else (splitWrd (rest.drop (k - 1))).map
        (fun toks => (c :: rest.take (k - 1)) :: toks))
termination_by word.length
decreasing_by
  have h1 : (rest.drop (k - 1)).length = rest.length - (k - 1) :=
    List.length_drop (k - 1) rest
  simp only [List.length_cons]
  omega

/-- Validity of one token as the byte sequence of a single UTF-8 code point:
a leading byte whose declared length equals the token length, followed by
continuation bytes. -/
def IsUtf8Token (tok : List ℕ) : Prop :=
  match tok with
  | [] => False
  | c :: cs => utf8SeqLen c = some tok.length ∧ ∀ b ∈ cs, 0x80 ≤ b ∧ b < 0xC0

mutual
/-- Modelled from the spec: a trie node (spec section 3): labels, each a
pair of a word index and a seed score; a maxScore field, assigned by
smearing (bottom of the order standing for the aggregate of an empty
subtree); and a sparse map from token index to child node.  The trie
implementation `decoder/Trie.h` is absent from `src/` (only its use in
`DecoderTest.cpp`). -/
inductive TrieNode : Type where
  | mk : List (ℕ × ℚ) → WithBot ℚ → TrieChildren → TrieNode
/-- Modelled from the spec: the sparse child map of a trie node, an
association list from token index to child, unique per parent. -/
inductive TrieChildren : Type where
  | nil : TrieChildren
  | cons : ℕ → TrieNode → TrieChildren → TrieChildren
end

/-- Label list stored directly at a node. -/
def TrieNode.labels : TrieNode → List (ℕ × ℚ)
  | .mk ls _ _ => ls

/-- Smeared lookahead score of a node. -/
def TrieNode.maxScore : TrieNode → WithBot ℚ
  | .mk _ m _ => m

/-- Child map of a node. -/
def TrieNode.children : TrieNode → TrieChildren
  | .mk _ _ ch => ch

/-- Lookup of the child for a token index in the sparse child map. -/
def TrieChildren.find : TrieChildren → ℕ → Option TrieNode
  | .nil, _ => none
  | .cons i c rest, j => if i = j then some c else rest.find j

/-- Replacement of the child stored for a token index (first occurrence). -/
def TrieChildren.replace : TrieChildren → ℕ → TrieNode → TrieChildren
  | .nil, _, _ => .nil
  | .cons i c rest, j, n => if i = j then .cons i n rest else .cons i c (rest.replace j n)

/-- Modelled from the spec: a fresh node with no labels and no children;
maxScore is uninitialized until smearing runs (spec section 3), modelled
as 0 like the reference constructor. -/
def TrieNode.empty : TrieNode :=
  .mk [] 0 .nil

/-- Modelled from the spec: `Trie::insert` (spec section 4.2) walks and
creates the path from the node following the token indices, creating child
nodes on demand, and appends a (wordIndex, score) label at the terminal
node.  The implementation is absent from `src/`. -/
def TrieNode.insert : TrieNode → List ℕ → ℕ → ℚ → TrieNode
  | .mk ls m ch, [], w, s => .mk (ls ++ [(w, s)]) m ch
  | .mk ls m ch, i :: rest, w, s =>
    match ch.find i with
    | some c => .mk ls m (ch.replace i (c.insert rest w s))
    | none => .mk ls m (.cons i (TrieNode.empty.insert rest w s) ch)

/-- Modelled from the spec: `Trie::search` (spec section 4.2), a pure
lookup following the token indices, returning the terminal node or the
not-found sentinel (modelled as `none`); it creates no nodes.  The
implementation is absent from `src/`. -/
def TrieNode.search : TrieNode → List ℕ → Option TrieNode
  | n, [] => some n
  | n, i :: rest =>
    match n.children.find i with
    | some c => c.search rest
    | none => none

/-- Aggregate of the label scores of a node under MAX smearing: the
maximum of the scores, bottom for an empty label list. -/
def labelMax (ls : List (ℕ × ℚ)) : WithBot ℚ :=
  ls.foldl (fun a p => max a (p.2 : WithBot ℚ)) ⊥

/-- Maximum of the maxScore fields over a child map, bottom when empty. -/
def TrieChildren.maxOf : TrieChildren → WithBot ℚ
  | .nil => ⊥
  | .cons _ c rest => max c.maxScore (TrieChildren.maxOf rest)

mutual
/-- Modelled from the spec: `Trie::smear` under `SmearingMode::MAX`
(spec section 4.2): a single bottom-up traversal assigning to every node
maxScore = max over its own label scores and all children maxScores.  The
LOGADD mode aggregates by log-sum-exp over real scores and is outside this
rational-score model.  The implementation is absent from `src/`. -/
def TrieNode.smearMax : TrieNode → TrieNode
  | .mk ls _ ch =>
    let ch2 := TrieChildren.smearMax ch
    .mk ls (max (labelMax ls) (TrieChildren.maxOf ch2)) ch2
/-- Pointwise MAX smearing of every node of a child map. -/
def TrieChildren.smearMax : TrieChildren → TrieChildren
  | .nil => .nil
  | .cons i c rest => .cons i (TrieNode.smearMax c) (TrieChildren.smearMax rest)
end

mutual
/-- Invariant of claim C6 at every node of a (sub)trie: the maxScore of each
node dominates the score of every label stored directly at the node and the
maxScore of every child. -/
def TrieNode.maxInv : TrieNode → Prop
  | .mk ls m ch => (∀ p ∈ ls, (p.2 : WithBot ℚ) ≤ m) ∧ TrieChildren.childInv m ch
/-- Children part of the C6 invariant: every child maxScore is dominated by
the bound and every child subtree satisfies the invariant. -/
def TrieChildren.childInv : WithBot ℚ → TrieChildren → Prop
  | _, .nil => True
  | m, .cons _ c rest => c.maxScore ≤ m ∧ TrieNode.maxInv c ∧ TrieChildren.childInv m rest
end

/-- Digit value of a decimal digit character, the partial inverse of
`Nat.digitChar` on digits. -/
def decodeDigit (c : Char) : ℕ :=
  c.toNat - 48

/-- Decimal digit characters of a natural number, most significant first;
the reference shape of `Nat.toDigits 10`. -/
def natDigits (n : ℕ) : List Char :=
  if n < 10 then [Nat.digitChar n]
  else natDigits (n / 10) ++ [Nat.digitChar (n % 10)]
termination_by n
decreasing_by
  exact Nat.div_lt_self (by omega) (by omega)

/-! Injectivity of the decimal rendering of natural numbers, needed because
the replabel codec keys its count tokens by their literal decimal strings. -/

theorem decodeDigit_digitChar : ∀ k < 10, decodeDigit (Nat.digitChar k) = k := by
  decide

theorem natDigits_lt (n : ℕ) (h : n < 10) : natDigits n = [Nat.digitChar n] := by
  rw [natDigits]
  simp [h]

theorem natDigits_ge (n : ℕ) (h : 10 ≤ n) :
    natDigits n = natDigits (n / 10) ++ [Nat.digitChar (n % 10)] := by
  rw [natDigits]
  simp [Nat.not_lt.2 h]

theorem toDigitsCore_eq (f : ℕ) : ∀ n acc, n < f →
    Nat.toDigitsCore 10 f n acc = natDigits n ++ acc := by
  induction f with
  | zero => intro n acc h; omega
  | succ f ih =>
    intro n acc h
    by_cases h0 : n / 10 = 0
    · have h10 : n < 10 := by omega
      rw [natDigits_lt n h10]
      simp [Nat.toDigitsCore, h0, Nat.mod_eq_of_lt h10]
    · have h10 : 10 ≤ n := by omega
      have hrec := ih (n / 10) (Nat.digitChar (n % 10) :: acc) (by omega)
      rw [natDigits_ge n h10]
      simp [Nat.toDigitsCore, h0, hrec]

theorem foldl_natDigits (n : ℕ) : ∀ a : ℕ,
    (natDigits n).foldl (fun x c => x * 10 + decodeDigit c) a =
      a * 10 ^ (natDigits n).length + n := by
  induction n using Nat.strong_induction_on with
  | _ n ih =>
    intro a
    by_cases h : n < 10
    · rw [natDigits_lt n h]
      simp [decodeDigit_digitChar n h]
    · push_neg at h
      rw [natDigits_ge n h, List.foldl_append,
        ih (n / 10) (Nat.div_lt_self (by omega) (by omega)) a]
      have hdm : n / 10 * 10 + n % 10 = n := by omega
      simp only [List.foldl_cons, List.foldl_nil, List.length_append,
        List.length_singleton]
      rw [decodeDigit_digitChar _ (Nat.mod_lt n (by omega))]
      calc (a * 10 ^ (natDigits (n / 10)).length + n / 10) * 10 + n % 10
          = a * (10 ^ (natDigits (n / 10)).length * 10) +
              (n / 10 * 10 + n % 10) := by ring
        _ = a * 10 ^ ((natDigits (n / 10)).length + 1) + n := by
              rw [hdm, pow_succ]

theorem natDigits_inj (m n : ℕ) (h : natDigits m = natDigits n) : m = n := by
  have hm := foldl_natDigits m 0
  rw [h] at hm
  rw [foldl_natDigits n 0] at hm
  simpa using hm.symm

theorem natToString_inj (m n : ℕ) (h : toString m = toString n) : m = n := by
  have h3 : (Nat.toDigits 10 m).asString = (Nat.toDigits 10 n).asString := h
  have h4 : Nat.toDigits 10 m = Nat.toDigits 10 n := by
    have h5 := congrArg String.data h3
    simpa [List.asString] using h5
  have h6 : natDigits m ++ ([] : List Char) = natDigits n ++ [] := by
    rw [← toDigitsCore_eq (m + 1) m [] (by omega),
      ← toDigitsCore_eq (n + 1) n [] (by omega)]
    exact h4
  exact natDigits_inj m n (by simpa using h6)

/-! Recognition of registered count tokens. -/

theorem find?_eq_some_unique {p : ℕ → Bool} {a : ℕ} :
    ∀ l : List ℕ, a ∈ l → (∀ x ∈ l, p x = true ↔ x = a) → l.find? p = some a := by
  intro l
  induction l with
  | nil => simp
  | cons b l ih =>
    intro hmem hiff
    by_cases hb : p b = true
    · have hba : b = a := (hiff b (by simp)).1 hb
      rw [List.find?_cons_of_pos _ hb, hba]
    · have hba : b ≠ a := fun e => hb ((hiff b (by simp)).2 e)
      have hal : a ∈ l := by
        rcases List.mem_cons.1 hmem with h | h
        · exact absurd h.symm hba
        · exact h
      rw [List.find?_cons_of_neg _ (by simpa using hb)]
      exact ih hal (fun x hx => hiff x (List.mem_cons_of_mem _ hx))

theorem replabelValue_getIndex (dict : Dictionary) (maxReps k : ℕ)
    (hreg : ∀ j, 1 ≤ j → j ≤ maxReps → toString j ∈ dict.entries)
    (h1 : 1 ≤ k) (h2 : k ≤ maxReps) :
    replabelValue dict maxReps (dict.getIndex (toString k)) = some k := by
  unfold replabelValue
  apply find?_eq_some_unique
  · simp only [List.mem_map, List.mem_range]
    exact ⟨k - 1, by omega, by omega⟩
  · intro x hx
    simp only [List.mem_map, List.mem_range] at hx
    obtain ⟨j, hj, rfl⟩ := hx
    constructor
    · intro hpx
      have heq : dict.getIndex (toString (j + 1)) = dict.getIndex (toString k) := by
        simpa using hpx
      have hm1 : toString (j + 1) ∈ dict.entries := hreg _ (by omega) (by omega)
      have hm2 : toString k ∈ dict.entries := hreg _ h1 h2
      have hs : toString (j + 1) = toString k :=
        (List.indexOf_inj hm1 hm2).1 heq
      exact natToString_inj _ _ hs
    · intro e
      rw [e]
      simp

/-! Equation lemmas for the run encoder. -/

theorem chunkRun_zero (dict : Dictionary) (maxReps t : ℕ) :
    chunkRun dict maxReps t 0 = [] := by
  rw [chunkRun]
  simp

theorem chunkRun_one (dict : Dictionary) (maxReps t : ℕ) :
    chunkRun dict maxReps t 1 = [t] := by
  rw [chunkRun]
  simp

theorem chunkRun_mid (dict : Dictionary) (maxReps t n : ℕ) (h2 : 2 ≤ n)
    (hn : n ≤ maxReps) :
    chunkRun dict maxReps t n = [t, dict.getIndex (toString n)] := by
  rw [chunkRun]
  rw [if_neg (by omega), if_neg (by omega), if_pos hn]

theorem chunkRun_big (dict : Dictionary) (maxReps t n : ℕ) (hm : 1 ≤ maxReps)
    (h : maxReps < n) :
    chunkRun dict maxReps t n =
      (if maxReps = 1 then [t] else [t, dict.getIndex (toString maxReps)]) ++
        chunkRun dict maxReps t (n - maxReps) := by
  conv_lhs => rw [chunkRun]
  rw [if_neg (by omega), if_neg (by omega), if_neg (by omega),
    Nat.max_eq_left hm]

/-! Properties of the run-length view. -/


theorem runLengths_nil_iff (l : List ℕ) : runLengths l = [] ↔ l = [] := by
  cases l with
  | nil => simp [runLengths]
  | cons t rest =>
    simp only [runLengths]
    constructor
    · intro h
      split at h
      · simp_all
      · split at h <;> simp_all
    · intro h
      simp at h

theorem runLengths_head_eq (l : List ℕ) :
    (runLengths l).head?.map Prod.fst = l.head? := by
  cases l with
  | nil => simp [runLengths]
  | cons t rest =>
    simp only [runLengths]
    split
    · simp
    · split <;> simp

theorem decode_runLengths :
    ∀ l : List ℕ, ((runLengths l).map (fun p => List.replicate p.2 p.1)).flatten = l := by
  intro l
  induction l with
  | nil => simp [runLengths]
  | cons t rest ih =>
    simp only [runLengths]
    rcases hr : runLengths rest with _ | ⟨⟨v, m⟩, rs2⟩ <;> rw [hr] at ih
    · have hrest : rest = [] := (runLengths_nil_iff rest).1 hr
      subst hrest
      simp
    · by_cases htv : t = v
      · subst htv
        simp only [List.map_cons, List.flatten_cons] at ih
        simp [List.replicate_succ, ih]
      · simp only [List.map_cons, List.flatten_cons] at ih
        simp [htv, ih]

theorem runLengths_mem :
    ∀ (l : List ℕ) p, p ∈ runLengths l → 1 ≤ p.2 ∧ p.1 ∈ l := by
  intro l
  induction l with
  | nil => simp [runLengths]
  | cons t rest ih =>
    intro p hp
    simp only [runLengths] at hp
    split at hp
    · simp at hp
      subst hp
      simp
    · rename_i u n rs heq
      split at hp
      · rename_i htu
        subst htu
        rcases List.mem_cons.1 hp with rfl | hp2
        · exact ⟨by simp, by simp⟩
        · have := ih p (by rw [heq]; exact List.mem_cons_of_mem _ hp2)
          exact ⟨this.1, List.mem_cons_of_mem _ this.2⟩
      · rcases List.mem_cons.1 hp with rfl | hp2
        · simp
        · have := ih p (by rw [heq]; exact hp2)
          exact ⟨this.1, List.mem_cons_of_mem _ this.2⟩

theorem runLengths_replicate_append (t : ℕ) (y : List ℕ) (hy : y.head? ≠ some t) :
    ∀ k, 1 ≤ k → runLengths (List.replicate k t ++ y) = (t, k) :: runLengths y := by
  intro k
  induction k with
  | zero => omega
  | succ k ih =>
    intro _
    by_cases hk : k = 0
    · subst hk
      simp only [List.replicate_succ, List.replicate_zero, List.cons_append,
        List.append_eq, List.nil_append, runLengths]
      rcases hr : runLengths y with _ | ⟨⟨v, m⟩, rs⟩
      · simp
      · have hv : y.head? = some v := by
          have hh := runLengths_head_eq y
          rw [hr] at hh
          simpa using hh.symm
        have htv : t ≠ v := fun e => hy (by rw [hv, e])
        simp [htv]
    · have ihk := ih (by omega)
      simp only [List.replicate_succ, List.cons_append, runLengths, List.append_eq]
      rw [ihk]
      simp

theorem runLengths_replicate (t k : ℕ) (hk : 1 ≤ k) :
    runLengths (List.replicate k t) = [(t, k)] := by
  have h := runLengths_replicate_append t [] (by simp) k hk
  simpa [runLengths] using h

theorem runLengths_chain :
    ∀ x : List ℕ, List.Chain' (fun a b => a ≠ b) x →
      runLengths x = x.map (fun t => (t, 1)) := by
  intro x
  induction x with
  | nil => simp [runLengths]
  | cons t rest ih =>
    intro hch
    simp only [runLengths]
    rw [ih hch.tail]
    cases rest with
    | nil => simp
    | cons u rest2 =>
      have htu : t ≠ u := (List.chain'_cons.1 hch).1
      simp [htu]

/-! Characterization of the packer. -/

theorem packReplabels_eq (x : List ℕ) (dict : Dictionary) (maxReps : ℕ)
    (hm : maxReps ≠ 0) :
    packReplabels x dict maxReps =
      ((runLengths x).map (fun p => chunkRun dict maxReps p.1 p.2)).flatten := by
  simp [packReplabels, hm]

theorem packReplabels_replicate (dict : Dictionary) (maxReps t k : ℕ)
    (hm : 1 ≤ maxReps) (hk : 1 ≤ k) :
    packReplabels (List.replicate k t) dict maxReps = chunkRun dict maxReps t k := by
  rw [packReplabels_eq _ _ _ (by omega), runLengths_replicate t k hk]
  simp

theorem flatten_map_singleton (x : List ℕ) :
    (x.map (fun t => [t])).flatten = x := by
  induction x with
  | nil => simp
  | cons t rest ih => simp [ih]

theorem packReplabels_chain (dict : Dictionary) (maxReps : ℕ) (x : List ℕ)
    (hm : 1 ≤ maxReps) (hx : List.Chain' (fun a b => a ≠ b) x) :
    packReplabels x dict maxReps = x := by
  rw [packReplabels_eq _ _ _ (by omega), runLengths_chain x hx, List.map_map]
  have hfn : ((fun p : ℕ × ℕ => chunkRun dict maxReps p.1 p.2) ∘ fun t => (t, 1)) =
      fun t => [t] := by
    funext t
    exact chunkRun_one dict maxReps t
  rw [hfn, flatten_map_singleton]

theorem packReplabels_append_run (dict : Dictionary) (maxReps t k : ℕ) (y : List ℕ)
    (hm : 1 ≤ maxReps) (hk : 1 ≤ k) (hy : y.head? ≠ some t) :
    packReplabels (List.replicate k t ++ y) dict maxReps =
      packReplabels (List.replicate k t) dict maxReps ++ packReplabels y dict maxReps := by
  rw [packReplabels_eq _ _ _ (by omega), runLengths_replicate_append t y hy k hk,
    packReplabels_replicate dict maxReps t k hm hk,
    packReplabels_eq y dict maxReps (by omega)]
  simp

/-- Claim C3: `packReplabels` replaces every run of `k` (2 ≤ k ≤ maxReps)
identical consecutive tokens by one instance of that token followed by the
dictionary index of the literal count string of `k`; it packs runs longer
than `maxReps` in chunks of `maxReps` (a chunk being the token followed by
the count token of `maxReps`, or the bare token when maxReps is 1); and it
leaves all other tokens unchanged in order: a sequence with no repeated
neighbours is returned verbatim, and a maximal leading run is encoded
independently of the remainder.  Presence of the required count tokens in
the dictionary is a precondition of the spec; the encoding shape holds for
any dictionary, the emitted count index being whatever the dictionary
assigns to the count string. -/
theorem packReplabels_runs (dict : Dictionary) (maxReps : ℕ) (hm : 1 ≤ maxReps) :
    (∀ t k, 2 ≤ k → k ≤ maxReps →
       packReplabels (List.replicate k t) dict maxReps =
         [t, dict.getIndex (toString k)]) ∧
    (∀ t n, maxReps < n →
       packReplabels (List.replicate n t) dict maxReps =
         (if maxReps = 1 then [t] else [t, dict.getIndex (toString maxReps)]) ++
           packReplabels (List.replicate (n - maxReps) t) dict maxReps) ∧
    (∀ x, List.Chain' (fun a b => a ≠ b) x → packReplabels x dict maxReps = x) ∧
    (∀ t k y, 1 ≤ k → y.head? ≠ some t →
       packReplabels (List.replicate k t ++ y) dict maxReps =
         packReplabels (List.replicate k t) dict maxReps ++
           packReplabels y dict maxReps) := by
  refine ⟨?_, ?_, ?_, ?_⟩
  · intro t k h2 hk
    rw [packReplabels_replicate dict maxReps t k hm (by omega)]
    exact chunkRun_mid dict maxReps t k h2 hk
  · intro t n hn
    rw [packReplabels_replicate dict maxReps t n hm (by omega),
      packReplabels_replicate dict maxReps t (n - maxReps) hm (by omega)]
    exact chunkRun_big dict maxReps t n hm hn
  · intro x hx
    exact packReplabels_chain dict maxReps x hm hx
  · intro t k y hk hy
    exact packReplabels_append_run dict maxReps t k y hm hk hy

/-- Witness for claim C3 at a concrete input: with the dictionary
["1", "2"] and maxReps 2, the run of two copies of token 5 packs to token 5
followed by the index of the count string of 2. -/
theorem packReplabels_runs_witness :
    packReplabels (List.replicate 2 5) ⟨["1", "2"]⟩ 2 =
      [5, Dictionary.getIndex ⟨["1", "2"]⟩ (toString 2)] :=
  (packReplabels_runs ⟨["1", "2"]⟩ 2 (by omega)).1 5 2 (by omega) (by omega)

/-! Equation lemmas for the unpacker and the round trip. -/

theorem unpackReplabels_count (dict : Dictionary) (maxReps t c k : ℕ)
    (rest : List ℕ) (h : replabelValue dict maxReps c = some k) :
    unpackReplabels (t :: c :: rest) dict maxReps =
      List.replicate k t ++ unpackReplabels rest dict maxReps := by
  simp [unpackReplabels, h]

theorem unpackReplabels_pass (dict : Dictionary) (maxReps t c : ℕ)
    (rest : List ℕ) (h : replabelValue dict maxReps c = none) :
    unpackReplabels (t :: c :: rest) dict maxReps =
      t :: unpackReplabels (c :: rest) dict maxReps := by
  simp [unpackReplabels, h]

theorem unpackReplabels_cons_of_head (dict : Dictionary) (maxReps t : ℕ)
    (rest : List ℕ)
    (h : ∀ c, rest.head? = some c → replabelValue dict maxReps c = none) :
    unpackReplabels (t :: rest) dict maxReps =
      t :: unpackReplabels rest dict maxReps := by
  cases rest with
  | nil => rfl
  | cons c rest2 => exact unpackReplabels_pass dict maxReps t c rest2 (h c rfl)

theorem chunkRun_head (dict : Dictionary) (maxReps t n : ℕ) (hm : 1 ≤ maxReps)
    (hn : 1 ≤ n) : ∃ tail, chunkRun dict maxReps t n = t :: tail := by
  by_cases h1 : n = 1
  · exact ⟨[], by rw [h1, chunkRun_one]⟩
  · by_cases h2 : n ≤ maxReps
    · exact ⟨_, chunkRun_mid dict maxReps t n (by omega) h2⟩
    · rw [chunkRun_big dict maxReps t n hm (by omega)]
      by_cases hm1 : maxReps = 1
      · exact ⟨_, by rw [if_pos hm1]; rfl⟩
      · exact ⟨_, by rw [if_neg hm1]; rfl⟩

theorem unpack_chunkRun (dict : Dictionary) (maxReps : ℕ) (hm : 1 ≤ maxReps)
    (hreg : ∀ j, 1 ≤ j → j ≤ maxReps → toString j ∈ dict.entries)
    (t : ℕ) (ht : replabelValue dict maxReps t = none) :
    ∀ n, 1 ≤ n → ∀ rest : List ℕ,
      (∀ c, rest.head? = some c → replabelValue dict maxReps c = none) →
      unpackReplabels (chunkRun dict maxReps t n ++ rest) dict maxReps =
        List.replicate n t ++ unpackReplabels rest dict maxReps := by
  intro n
  induction n using Nat.strong_induction_on with
  | _ n ih =>
    intro hn rest hrest
    by_cases h1 : n = 1
    · subst h1
      rw [chunkRun_one]
      simp only [List.cons_append, List.nil_append]
      rw [unpackReplabels_cons_of_head dict maxReps t rest hrest]
      simp
    · by_cases h2 : n ≤ maxReps
      · rw [chunkRun_mid dict maxReps t n (by omega) h2]
        simp only [List.cons_append, List.nil_append]
        exact unpackReplabels_count dict maxReps t _ n rest
          (replabelValue_getIndex dict maxReps n hreg (by omega) h2)
      · rw [chunkRun_big dict maxReps t n hm (by omega)]
        have hsub : 1 ≤ n - maxReps := by omega
        have hrec := ih (n - maxReps) (by omega) hsub rest hrest
        obtain ⟨tail, htail⟩ := chunkRun_head dict maxReps t (n - maxReps) hm hsub
        by_cases hm1 : maxReps = 1
        · rw [if_pos hm1]
          simp only [List.cons_append, List.nil_append]
          rw [unpackReplabels_cons_of_head dict maxReps t _ ?hd, hrec]
          · rw [← List.cons_append, ← List.replicate_succ]
            have hexp : n - maxReps + 1 = n := by omega
            rw [hexp]
          case hd =>
            intro c hc
            rw [htail] at hc
            simp at hc
            rw [← hc]
            exact ht
        · rw [if_neg hm1]
          simp only [List.cons_append, List.nil_append, List.append_assoc]
          rw [unpackReplabels_count dict maxReps t _ maxReps _
            (replabelValue_getIndex dict maxReps maxReps hreg hm le_rfl), hrec,
            ← List.append_assoc, ← List.replicate_add]
          have hexp : maxReps + (n - maxReps) = n := by omega
          rw [hexp]

theorem unpack_encoded (dict : Dictionary) (maxReps : ℕ) (hm : 1 ≤ maxReps)
    (hreg : ∀ j, 1 ≤ j → j ≤ maxReps → toString j ∈ dict.entries) :
    ∀ rs : List (ℕ × ℕ),
      (∀ p ∈ rs, 1 ≤ p.2 ∧ replabelValue dict maxReps p.1 = none) →
      unpackReplabels ((rs.map (fun p => chunkRun dict maxReps p.1 p.2)).flatten)
          dict maxReps =
        (rs.map (fun p => List.replicate p.2 p.1)).flatten := by
  intro rs
  induction rs with
  | nil =>
    intro _
    simp [unpackReplabels]
  | cons p rs2 ih =>
    intro hps
    obtain ⟨hp1, hp2⟩ := hps p (by simp)
    simp only [List.map_cons, List.flatten_cons]
    rw [unpack_chunkRun dict maxReps hm hreg p.1 hp2 p.2 hp1 _ ?hd,
      ih (fun q hq => hps q (List.mem_cons_of_mem _ hq))]
    case hd =>
      intro c hc
      cases rs2 with
      | nil => simp at hc
      | cons q rs3 =>
        obtain ⟨hq1, hq2⟩ := hps q (by simp)
        obtain ⟨tail, htail⟩ := chunkRun_head dict maxReps q.1 q.2 hm hq1
        simp only [List.map_cons, List.flatten_cons, htail, List.cons_append,
          List.head?_cons, Option.some.injEq] at hc
        rw [← hc]
        exact hq2

theorem unpack_pack_eq (dict : Dictionary) (maxReps : ℕ) (x : List ℕ)
    (hm : 1 ≤ maxReps)
    (hreg : ∀ j, 1 ≤ j → j ≤ maxReps → toString j ∈ dict.entries)
    (hx : ∀ t ∈ x, replabelValue dict maxReps t = none) :
    unpackReplabels (packReplabels x dict maxReps) dict maxReps = x := by
  rw [packReplabels_eq x dict maxReps (by omega),
    unpack_encoded dict maxReps hm hreg (runLengths x) ?h]
  · exact decode_runLengths x
  case h =>
    intro p hp
    have hmem := runLengths_mem x p hp
    exact ⟨hmem.1, hx p.1 hmem.2⟩

/-- Counterexample to claim C2 as stated: with the dictionary ["a", "1"] and
maxReps 1, the input [0, 1] has only runs of length 1 (within every
representable count) and the count token of 1 is registered, yet the round
trip loses the trailing token: the input already contains the count-token
index 1, which the unpacker consumes as a repeat marker even though the
packer never emitted it. -/
theorem replabels_roundtrip_cex :
    runLengths [0, 1] = [(0, 1), (1, 1)] ∧
    toString 1 ∈ (⟨["a", "1"]⟩ : Dictionary).entries ∧
    unpackReplabels (packReplabels [0, 1] ⟨["a", "1"]⟩ 1) ⟨["a", "1"]⟩ 1 ≠ [0, 1] := by
  refine ⟨by decide, by decide, ?_⟩
  rw [packReplabels_chain ⟨["a", "1"]⟩ 1 [0, 1] (by omega)
    (List.chain'_cons.2 ⟨by omega, List.chain'_singleton 1⟩)]
  decide

/-- Claim C2 (amended): for every token-index sequence x none of whose
elements is itself a recognized count-token index, and every maxReps ≥ 1,
provided the count tokens of 1 up to maxReps are registered in the
dictionary, unpacking the packing of x returns x.  The amendment forced by
the counterexample is the added requirement that x be free of count-token
indices; no bound on run lengths is needed, since runs longer than maxReps
are packed in chunks. -/
theorem replabels_roundtrip (dict : Dictionary) (maxReps : ℕ) (x : List ℕ)
    (hm : 1 ≤ maxReps)
    (hreg : ∀ j, 1 ≤ j → j ≤ maxReps → toString j ∈ dict.entries)
    (hx : ∀ t ∈ x, replabelValue dict maxReps t = none) :
    unpackReplabels (packReplabels x dict maxReps) dict maxReps = x :=
  unpack_pack_eq dict maxReps x hm hreg hx

/-- Witness for claim C2 at a concrete input: the run of three copies of
token 0 round-trips through the codec with the dictionary ["a", "1"] and
maxReps 1. -/
theorem replabels_roundtrip_witness :
    unpackReplabels (packReplabels [0, 0, 0] ⟨["a", "1"]⟩ 1) ⟨["a", "1"]⟩ 1 =
      [0, 0, 0] :=
  replabels_roundtrip ⟨["a", "1"]⟩ 1 [0, 0, 0] (by omega)
    (fun j h1 h2 => by
      have hj : j = 1 := by omega
      subst hj
      decide)
    (by decide)

/-- Claim C4: `unpackReplabels` maps every token immediately followed by a
recognized count token to that many repeats of the token, passes every
token with no following count token through unchanged, and is the inverse
transform of `packReplabels` on packed sequences — the sequences packed
from inputs free of count-token indices, under the registration
precondition of the spec. -/
theorem unpackReplabels_spec (dict : Dictionary) (maxReps : ℕ) :
    (∀ t c k rest, replabelValue dict maxReps c = some k →
       unpackReplabels (t :: c :: rest) dict maxReps =
         List.replicate k t ++ unpackReplabels rest dict maxReps) ∧
    (∀ t rest, (∀ c, rest.head? = some c → replabelValue dict maxReps c = none) →
       unpackReplabels (t :: rest) dict maxReps =
         t :: unpackReplabels rest dict maxReps) ∧
    (∀ x, 1 ≤ maxReps →
       (∀ j, 1 ≤ j → j ≤ maxReps → toString j ∈ dict.entries) →
       (∀ t ∈ x, replabelValue dict maxReps t = none) →
       unpackReplabels (packReplabels x dict maxReps) dict maxReps = x) := by
  refine ⟨?_, ?_, ?_⟩
  · intro t c k rest h
    exact unpackReplabels_count dict maxReps t c k rest h
  · intro t rest h
    exact unpackReplabels_cons_of_head dict maxReps t rest h
  · intro x hm hreg hx
    exact unpack_pack_eq dict maxReps x hm hreg hx

/-- Witness for claim C4 at a concrete input: with the dictionary ["1"] and
maxReps 1, index 0 is the count token of 1, so token 7 followed by it
expands to one repeat of 7. -/
theorem unpackReplabels_spec_witness :
    unpackReplabels [7, 0, 9] ⟨["1"]⟩ 1 =
      List.replicate 1 7 ++ unpackReplabels [9] ⟨["1"]⟩ 1 :=
  (unpackReplabels_spec ⟨["1"]⟩ 1).1 7 0 1 [9] (by decide)

/-! Lookup and replacement in the sparse child map. -/

theorem find_replace_self : ∀ (ch : TrieChildren) (i : ℕ) (x c : TrieNode),
    ch.find i = some c → (ch.replace i x).find i = some x
  | .nil, i, x, c, h => by
    simp [TrieChildren.find] at h
  | .cons j c2 rest, i, x, c, h => by
    by_cases hji : j = i
    · subst hji
      simp [TrieChildren.find, TrieChildren.replace]
    · simp only [TrieChildren.find, TrieChildren.replace, if_neg hji] at h ⊢
      exact find_replace_self rest i x c h

theorem find_replace_ne : ∀ (ch : TrieChildren) (i j : ℕ) (x : TrieNode),
    j ≠ i → (ch.replace j x).find i = ch.find i
  | .nil, _, _, _, _ => rfl
  | .cons a c rest, i, j, x, hji => by
    by_cases haj : a = j
    · subst haj
      simp only [TrieChildren.replace, if_pos rfl, TrieChildren.find,
        if_neg (by omega : a ≠ i)]
    · simp only [TrieChildren.replace, if_neg haj, TrieChildren.find]
      by_cases hai : a = i
      · simp [hai]
      · simp only [if_neg hai]
        exact find_replace_ne rest i j x hji

theorem insert_search_finds : ∀ (toks : List ℕ) (t : TrieNode) (w : ℕ) (s : ℚ),
    ∃ n, TrieNode.search (TrieNode.insert t toks w s) toks = some n ∧
      (w, s) ∈ n.labels
  | [], .mk ls m ch, w, s =>
    ⟨.mk (ls ++ [(w, s)]) m ch, by simp [TrieNode.insert, TrieNode.search],
      by simp [TrieNode.labels]⟩
  | i :: rest, .mk ls m ch, w, s => by
    cases hf : ch.find i with
    | some c =>
      obtain ⟨n, hn, hw⟩ := insert_search_finds rest c w s
      refine ⟨n, ?_, hw⟩
      simp only [TrieNode.insert, hf, TrieNode.search, TrieNode.children]
      rw [find_replace_self ch i _ c hf]
      exact hn
    | none =>
      obtain ⟨n, hn, hw⟩ := insert_search_finds rest TrieNode.empty w s
      refine ⟨n, ?_, hw⟩
      simp only [TrieNode.insert, hf, TrieNode.search, TrieNode.children,
        TrieChildren.find, if_pos rfl]
      exact hn

theorem insert_search_preserves :
    ∀ (toks : List ℕ) (t n : TrieNode) (w : ℕ) (s : ℚ)
      (toks2 : List ℕ) (w2 : ℕ) (s2 : ℚ),
      t.search toks = some n → (w, s) ∈ n.labels →
      ∃ n2, (t.insert toks2 w2 s2).search toks = some n2 ∧ (w, s) ∈ n2.labels
  | [], .mk ls m ch, n, w, s, toks2, w2, s2, hs, hw => by
    have hn : n = .mk ls m ch := by
      simpa [TrieNode.search] using hs.symm
    subst hn
    cases toks2 with
    | nil =>
      refine ⟨.mk (ls ++ [(w2, s2)]) m ch, by simp [TrieNode.insert, TrieNode.search], ?_⟩
      simp only [TrieNode.labels] at hw ⊢
      exact List.mem_append_left _ hw
    | cons j rest2 =>
      cases hf2 : ch.find j with
      | some c2 =>
        exact ⟨.mk ls m (ch.replace j (c2.insert rest2 w2 s2)),
          by simp [TrieNode.insert, hf2, TrieNode.search], hw⟩
      | none =>
        exact ⟨.mk ls m (.cons j (TrieNode.empty.insert rest2 w2 s2) ch),
          by simp [TrieNode.insert, hf2, TrieNode.search], hw⟩
  | i :: rest, .mk ls m ch, n, w, s, toks2, w2, s2, hs, hw => by
    cases hf : ch.find i with
    | none =>
      rw [TrieNode.search, TrieNode.children] at hs
      rw [hf] at hs
      exact absurd hs (by simp)
    | some c =>
      rw [TrieNode.search, TrieNode.children] at hs
      rw [hf] at hs
      cases toks2 with
      | nil =>
        refine ⟨n, ?_, hw⟩
        simp only [TrieNode.insert, TrieNode.search, TrieNode.children]
        rw [hf]
        exact hs
      | cons j rest2 =>
        cases hf2 : ch.find j with
        | some c2 =>
          by_cases hji : j = i
          · subst hji
            have hc2 : c2 = c := Option.some.inj (hf2.symm.trans hf)
            subst hc2
            obtain ⟨n2, hn2, hw2⟩ :=
              insert_search_preserves rest c2 n w s rest2 w2 s2 hs hw
            refine ⟨n2, ?_, hw2⟩
            simp only [TrieNode.insert, hf2, TrieNode.search, TrieNode.children]
            rw [find_replace_self ch j _ c2 hf2]
            exact hn2
          · refine ⟨n, ?_, hw⟩
            simp only [TrieNode.insert, hf2, TrieNode.search, TrieNode.children]
            rw [find_replace_ne ch i j _ hji, hf]
            exact hs
        | none =>
          have hji : j ≠ i := by
            intro e
            rw [e, hf] at hf2
            exact absurd hf2 (by simp)
          refine ⟨n, ?_, hw⟩
          simp only [TrieNode.insert, hf2, TrieNode.search, TrieNode.children,
            TrieChildren.find, if_neg hji]
          rw [hf]
          exact hs

/-- Claim C5: for every pronunciation inserted into the trie via insert
with a (wordIndex, score) pair, a subsequent search for those token indices
returns a terminal node — not the not-found sentinel — whose labels contain
that exact pair, and the pair is still found after any number of further
insertions (second conjunct, applied repeatedly).  In this model search is
a pure function returning an optional existing node, so it creates no nodes
by construction. -/
theorem trie_insert_search (t : TrieNode) (toks : List ℕ) (w : ℕ) (s : ℚ) :
    (∃ n, (t.insert toks w s).search toks = some n ∧ (w, s) ∈ n.labels) ∧
    (∀ (toks2 : List ℕ) (w2 : ℕ) (s2 : ℚ) (n : TrieNode),
       t.search toks = some n → (w, s) ∈ n.labels →
       ∃ n2, (t.insert toks2 w2 s2).search toks = some n2 ∧ (w, s) ∈ n2.labels) :=
  ⟨insert_search_finds toks t w s,
   fun toks2 w2 s2 n hs hw => insert_search_preserves toks t n w s toks2 w2 s2 hs hw⟩

/-- Witness for claim C5 at a concrete input: after inserting word 5 with
score 2 under the token path [1], a later insertion of word 4 under [3]
leaves the label (5, 2) reachable by searching [1]. -/
theorem trie_insert_search_witness :
    ∃ n2, ((TrieNode.empty.insert [1] 5 2).insert [3] 4 7).search [1] = some n2 ∧
      (5, (2 : ℚ)) ∈ n2.labels :=
  (trie_insert_search (TrieNode.empty.insert [1] 5 2) [1] 5 2).2 [3] 4 7
    (.mk [(5, 2)] 0 .nil) rfl (by simp [TrieNode.labels])

/-! MAX smearing dominates label scores and children. -/

theorem foldl_max_le_init (ls : List (ℕ × ℚ)) :
    ∀ a : WithBot ℚ, a ≤ ls.foldl (fun b p => max b (p.2 : WithBot ℚ)) a := by
  induction ls with
  | nil => intro a; exact le_rfl
  | cons q ls ih =>
    intro a
    simp only [List.foldl_cons]
    exact le_trans (le_max_left _ _) (ih _)

theorem foldl_max_mem_le (p : ℕ × ℚ) :
    ∀ (ls : List (ℕ × ℚ)) (a : WithBot ℚ), p ∈ ls →
      (p.2 : WithBot ℚ) ≤ ls.foldl (fun b q => max b (q.2 : WithBot ℚ)) a := by
  intro ls
  induction ls with
  | nil =>
    intro a h
    simp at h
  | cons q ls ih =>
    intro a hp
    simp only [List.foldl_cons]
    rcases List.mem_cons.1 hp with rfl | hp2
    · exact le_trans (le_max_right _ _) (foldl_max_le_init ls _)
    · exact ih _ hp2

theorem labelMax_mem_le (ls : List (ℕ × ℚ)) (p : ℕ × ℚ) (hp : p ∈ ls) :
    (p.2 : WithBot ℚ) ≤ labelMax ls :=
  foldl_max_mem_le p ls ⊥ hp

mutual
theorem smearMax_maxInv : ∀ t : TrieNode, TrieNode.maxInv (TrieNode.smearMax t)
  | .mk ls m ch => by
    simp only [TrieNode.smearMax, TrieNode.maxInv]
    refine ⟨?_, ?_⟩
    · intro p hp
      exact le_trans (labelMax_mem_le ls p hp) (le_max_left _ _)
    · exact smearChildren_childInv ch _ (le_max_right _ _)
theorem smearChildren_childInv : ∀ (ch : TrieChildren) (b : WithBot ℚ),
    TrieChildren.maxOf (TrieChildren.smearMax ch) ≤ b →
    TrieChildren.childInv b (TrieChildren.smearMax ch)
  | .nil, b, _ => by
    simp [TrieChildren.smearMax, TrieChildren.childInv]
  | .cons i c rest, b, h => by
    rw [TrieChildren.smearMax] at h ⊢
    rw [TrieChildren.maxOf] at h
    rw [TrieChildren.childInv]
    exact ⟨le_trans (le_max_left _ _) h, smearMax_maxInv c,
      smearChildren_childInv rest b (le_trans (le_max_right _ _) h)⟩
end

/-- Claim C6: after MAX-mode smearing has run once on a trie (with no
further insertions, the smeared trie being final), every node of the trie
has a maxScore that dominates the score of every label stored directly at
that node and the maxScore of every child. -/
theorem trie_smearMax_inv (t : TrieNode) : TrieNode.maxInv (TrieNode.smearMax t) :=
  smearMax_maxInv t

/-! Behaviour of the word splitter. -/

theorem splitWrd_ascii : ∀ bs : List ℕ, (∀ b ∈ bs, b < 0x80) →
    splitWrd bs = some (bs.map (fun b => [b])) := by
  intro bs
  induction bs with
  | nil =>
    intro _
    simp [splitWrd]
  | cons c rest ih =>
    intro h
    have hc : c < 0x80 := h c (by simp)
    have hk : utf8SeqLen c = some 1 := by simp [utf8SeqLen, hc]
    rw [splitWrd, hk, Option.some_bind, if_neg (by omega),
      show (1 : ℕ) - 1 = 0 from rfl, List.drop_zero, List.take_zero,
      ih (fun b hb => h b (List.mem_cons_of_mem _ hb))]
    simp

theorem splitWrd_tokens : ∀ toks : List (List ℕ), (∀ tok ∈ toks, IsUtf8Token tok) →
    splitWrd toks.flatten = some toks := by
  intro toks
  induction toks with
  | nil =>
    intro _
    simp [splitWrd]
  | cons tok toks2 ih =>
    intro h
    have htok := h tok (by simp)
    cases tok with
    | nil => exact absurd htok (by simp [IsUtf8Token])
    | cons c cs =>
      obtain ⟨hlen, hcont⟩ := htok
      simp only [List.length_cons] at hlen
      simp only [List.flatten_cons, List.cons_append]
      have hnlt : ¬ (cs ++ toks2.flatten).length < cs.length + 1 - 1 := by
        simp [List.length_append]
      rw [splitWrd, hlen, Option.some_bind, if_neg hnlt,
        show cs.length + 1 - 1 = cs.length from rfl, List.drop_left,
        ih (fun q hq => h q (List.mem_cons_of_mem _ hq)), List.take_left]
      simp

theorem splitWrd_flatten : ∀ (m : ℕ) (bs : List ℕ), bs.length ≤ m →
    ∀ toks, splitWrd bs = some toks → toks.flatten = bs := by
  intro m
  induction m with
  | zero =>
    intro bs hlen toks h
    have hbs : bs = [] := by
      cases bs with
      | nil => rfl
      | cons c rest => simp at hlen
    subst hbs
    simp [splitWrd] at h
    subst h
    rfl
  | succ m ih =>
    intro bs hlen toks h
    cases bs with
    | nil =>
      simp [splitWrd] at h
      subst h
      rfl
    | cons c rest =>
      rw [splitWrd] at h
      cases hk : utf8SeqLen c with
      | none =>
        rw [hk] at h
        simp at h
      | some k =>
        rw [hk, Option.some_bind] at h
        by_cases hlt : rest.length < k - 1
        · rw [if_pos hlt] at h
          simp at h
        · rw [if_neg hlt] at h
          cases hs : splitWrd (rest.drop (k - 1)) with
          | none =>
            rw [hs] at h
            simp at h
          | some toks2 =>
            rw [hs] at h
            have h2 : (c :: rest.take (k - 1)) :: toks2 = toks := Option.some.inj h
            have hrec := ih (rest.drop (k - 1))
              (by
                rw [List.length_drop]
                simp only [List.length_cons] at hlen
                omega)
              toks2 hs
            rw [← h2]
            simp only [List.flatten_cons, List.cons_append, hrec]
            rw [List.take_append_drop]

/-- Claim C10: `splitWrd` returns the characters of the word in order as
single-character tokens for ASCII input, keeps every multi-byte UTF-8 code
point together as one token (splitting a concatenation of code points at
exactly the code point boundaries), and concatenating the returned tokens
in order reproduces the input word whenever splitting succeeds. -/
theorem splitWrd_spec :
    (∀ bs : List ℕ, (∀ b ∈ bs, b < 0x80) →
       splitWrd bs = some (bs.map (fun b => [b]))) ∧
    (∀ toks : List (List ℕ), (∀ tok ∈ toks, IsUtf8Token tok) →
       splitWrd toks.flatten = some toks) ∧
    (∀ (bs : List ℕ) (toks : List (List ℕ)), splitWrd bs = some toks →
       toks.flatten = bs) :=
  ⟨splitWrd_ascii, splitWrd_tokens,
   fun bs toks h => splitWrd_flatten bs.length bs le_rfl toks h⟩

/-- Witness for claim C10 at concrete inputs: the ASCII word "ab" (bytes
[97, 98]) splits into the single-character tokens [97] and [98], and the
two-byte UTF-8 code point with bytes [195, 169] stays together as one
token. -/
theorem splitWrd_spec_witness :
    splitWrd [97, 98] = some [[97], [98]] ∧
    splitWrd [195, 169] = some [[195, 169]] := by
  constructor
  · exact (splitWrd_spec.1 [97, 98] (by decide)).trans rfl
  · exact splitWrd_spec.2.1 [[195, 169]]
      (by
        intro tok htok
        simp only [List.mem_singleton] at htok
        subst htok
        exact ⟨by decide, by decide⟩)
